import Mathlib

/-!
Verification of the tagmu persistent tag store (`src/store.rs`, `src/id.rs`).

The store keeps four sled trees (ordered key-value collections keyed by byte
strings, byte-lexicographically sorted):
  tag_id_names : 8-byte big-endian tag id ↦ tag name bytes
  tag_name_ids : tag name bytes ↦ 8-byte big-endian tag id
  tag_items    : 16-byte compound key tag_id‖item_id ↦ empty value
  item_tags    : 16-byte compound key item_id‖tag_id ↦ empty value

We embed a sled tree as a list of (key, value) pairs of byte lists kept in
strictly ascending byte-lexicographic key order; `sledGet`, `sledInsert`,
`sledRemove` and `sledScan` model `Tree::get`, `Tree::insert`, `Tree::remove`
and `Tree::scan_prefix`.  Identifiers (`TagID`, `ItemID`, u64 newtypes in the
source) are embedded as `Nat`; the hypotheses `< 2 ^ 64` mirror the u64 type
of the Rust arguments.  Tag names (`&str` in the source) are embedded as their
UTF-8 byte lists; the UTF-8 re-decoding of a stored name in `get_item_tags` is
the identity in this embedding.
-/

set_option autoImplicit false

namespace Tagmu

/-- Strict byte-lexicographic order on byte strings: the order sled keeps its
keyspace in. -/
def bytesLt : List Nat → List Nat → Bool
  | [], [] => false
  | [], _ :: _ => true
  | _ :: _, [] => false
  | a :: as, b :: bs => if a < b then true else if a = b then bytesLt as bs else false

/-- The `w` big-endian bytes of `n`: models `u64::to_be_bytes` at `w = 8` for
`n < 2 ^ 64`. -/
def beBytes : Nat → Nat → List Nat
  | 0, _ => []
  | w + 1, n => n / 256 ^ w :: beBytes w (n % 256 ^ w)

/-- Models `<id>.to_bytes()`, i.e. `u64::to_be_bytes` (src/id.rs). -/
def toBytes (n : Nat) : List Nat := beBytes 8 n

/-- Models `u64::from_be_bytes` (src/id.rs, `From<[u8; 8]>`). -/
def fromBeBytes : List Nat → Nat
  | [] => 0
  | b :: rest => b * 256 ^ rest.length + fromBeBytes rest

/-- A sled tree: (key, value) pairs of byte strings, kept in strictly
ascending byte-lexicographic key order. -/
abbrev Tree := List (List Nat × List Nat)

/-- Models `sled::Tree::get`. -/
def sledGet (t : Tree) (k : List Nat) : Option (List Nat) :=
  match t with
  | [] => none
  | (k', v') :: rest => if k' = k then some v' else sledGet rest k

/-- Models `sled::Tree::insert`: replaces the value of an existing key, else
inserts at the key's sorted position. -/
def sledInsert (t : Tree) (k v : List Nat) : Tree :=
  match t with
  | [] => [(k, v)]
  | (k', v') :: rest =>
    if bytesLt k k' then (k, v) :: (k', v') :: rest
    else if k = k' then (k, v) :: rest
    else (k', v') :: sledInsert rest k v

/-- Models `sled::Tree::remove` (the tree after removal; the removed value is
recovered with `sledGet` beforehand). -/
def sledRemove (t : Tree) (k : List Nat) : Tree :=
  match t with
  | [] => []
  | (k', v') :: rest => if k' = k then rest else (k', v') :: sledRemove rest k

/-- Models `sled::Tree::scan_prefix`: every entry whose key starts with `p`,
in ascending key order. -/
def sledScan (t : Tree) (p : List Nat) : Tree :=
  t.filter (fun e => p.isPrefixOf e.1)

/-- The error enum of src/store.rs (storage-engine errors cannot arise in this
embedding). -/
inductive Error where
  | NotFound (key : Nat)
  | ValueNotFound (val : List Nat)
  | InternalError
deriving DecidableEq

/-- `Tag` of src/store.rs; the name is kept as its UTF-8 bytes. -/
structure Tag where
  id : Nat
  name : List Nat
deriving DecidableEq

/-- Models `must_u8_16` of src/store.rs. -/
def must_u8_16 (slice : List Nat) : Except Error (List Nat) :=
  if slice.length = 16 then .ok slice else .error .InternalError

/-- Models `must_u8_8` of src/store.rs. -/
def must_u8_8 (slice : List Nat) : Except Error (List Nat) :=
  if slice.length = 8 then .ok slice else .error .InternalError

/-- Models `compound_key` of src/store.rs: the 16-byte concatenation of the
two 8-byte big-endian encodings. -/
def compound_key (a b : Nat) : List Nat := toBytes a ++ toBytes b

/-- Models `from_compound_key` of src/store.rs. -/
def from_compound_key (k : List Nat) : Nat × Nat :=
  (fromBeBytes (k.take 8), fromBeBytes (k.drop 8))

/-- The decoding step shared by the closures of `get_item_tag_ids` and
`get_tag_item_ids` (src/store.rs): check the matched key is 16 bytes wide and
decode its trailing identifier. -/
def decode_trailing (el : List Nat × List Nat) : Except Error Nat :=
  match must_u8_16 el.1 with
  | .error e => .error e
  | .ok k => .ok (from_compound_key k).2

/-- The store state: the four sled trees, plus the state of sled's monotonic
id generator. -/
structure Store where
  next_id : Nat
  tag_id_names : Tree
  tag_name_ids : Tree
  tag_items : Tree
  item_tags : Tree
deriving DecidableEq

/-- A freshly opened empty store.  The initial counter value is modelled from
the spec: `sled::Db::generate_id` is external to this repository, and
Scenario A of the spec fixes the first identifier allocated by a fresh store
at 1. -/
def emptyStore : Store :=
  { next_id := 1, tag_id_names := [], tag_name_ids := [], tag_items := [], item_tags := [] }

namespace Store

/-- Models `Store::id`.  Modelled from the spec: `sled::Db::generate_id` is
external code; the spec specifies a durable monotonic counter issuing unique,
strictly increasing identifiers, never reused. -/
def id (s : Store) : Nat × Store :=
  (s.next_id, { s with next_id := s.next_id + 1 })

/-- Models `Store::tag`: insert the forward key `tag‖item` and the reverse key
`item‖tag`, each with an empty value. -/
def tag (s : Store) (item t : Nat) : Store :=
  { s with
    tag_items := sledInsert s.tag_items (compound_key t item) []
    item_tags := sledInsert s.item_tags (compound_key item t) [] }

/-- Models `Store::untag`: remove both compound keys. -/
def untag (s : Store) (item t : Nat) : Store :=
  { s with
    tag_items := sledRemove s.tag_items (compound_key t item)
    item_tags := sledRemove s.item_tags (compound_key item t) }

/-- Models `Store::update_tag`: write both catalog entries. -/
def update_tag (s : Store) (i : Nat) (name : List Nat) : Store :=
  { s with
    tag_id_names := sledInsert s.tag_id_names (toBytes i) name
    tag_name_ids := sledInsert s.tag_name_ids name (toBytes i) }

/-- Models `Store::tag_string`: resolve the name to an id (creating the tag,
with a freshly allocated id, when absent), then index the pairing. -/
def tag_string (s : Store) (item : Nat) (tag_name : List Nat) : Except Error Store :=
  match sledGet s.tag_name_ids tag_name with
  | some tag_vec =>
    match must_u8_8 tag_vec with
    | .error e => .error e
    | .ok bytes => .ok (tag s item (fromBeBytes bytes))
  | none =>
    let t := s.next_id
    let s1 : Store := { s with next_id := s.next_id + 1 }
    let s2 := update_tag s1 t tag_name
    .ok (tag s2 item t)

/-- Models `Store::get_tag_id`. -/
def get_tag_id (s : Store) (tag_name : List Nat) : Except Error (Option Nat) :=
  match sledGet s.tag_name_ids tag_name with
  | none => .ok none
  | some vec =>
    match must_u8_8 vec with
    | .error e => .error e
    | .ok bytes => .ok (some (fromBeBytes bytes))

/-- Models `Store::remove_tag`: remove the id→name entry (an absent key makes
the removal a no-op and the call fails with `NotFound`), then remove the
name→id entry under the old name.  Returns the call's result together with
the store state after the call. -/
def remove_tag (s : Store) (i : Nat) : Except Error Unit × Store :=
  match sledGet s.tag_id_names (toBytes i) with
  | none =>
    (.error (.NotFound i), { s with tag_id_names := sledRemove s.tag_id_names (toBytes i) })
  | some old_name =>
    (.ok (), { s with
      tag_id_names := sledRemove s.tag_id_names (toBytes i)
      tag_name_ids := sledRemove s.tag_name_ids old_name })

/-- Models `Store::get_item_tag_ids`: scan the reverse tree on the item's
8-byte encoding and decode the trailing 8 bytes of each matched key. -/
def get_item_tag_ids (s : Store) (i : Nat) : List (Except Error Nat) :=
  (sledScan s.item_tags (toBytes i)).map decode_trailing

/-- Models `Store::get_item_tags`: join each tag id of `get_item_tag_ids`
through the id→name catalog; a missing catalog entry is an `InternalError`
for that element.  (The UTF-8 re-decoding of the stored name always succeeds
in this embedding, where names are byte lists.) -/
def get_item_tags (s : Store) (i : Nat) : List (Except Error Tag) :=
  (get_item_tag_ids s i).map (fun tag_result =>
    match tag_result with
    | .error e => .error e
    | .ok tag_id =>
      match sledGet s.tag_id_names (toBytes tag_id) with
      | none => .error .InternalError
      | some tag_vec => .ok { id := tag_id, name := tag_vec })

/-- Models `Store::get_tag_item_ids`: scan the forward tree on the tag's
8-byte encoding and decode the trailing 8 bytes of each matched key. -/
def get_tag_item_ids (s : Store) (i : Nat) : List (Except Error Nat) :=
  (sledScan s.tag_items (toBytes i)).map decode_trailing

end Store

/-- Every byte of the string is an actual byte (< 256). -/
def validBytes (l : List Nat) : Prop := ∀ b ∈ l, b < 256

/-- The entries of a sled tree are in strictly ascending byte-lexicographic
key order (sled's keyspace invariant). -/
def SortedTree (t : Tree) : Prop := t.Pairwise (fun a b => bytesLt a.1 b.1 = true)

/-- Every key of the tree is a 16-byte compound key. -/
def IndexKeys (t : Tree) : Prop := ∀ e ∈ t, e.1.length = 16 ∧ validBytes e.1

/-- Well-formedness of a store state: sled's keyspace order on the four
trees, 16-byte keys in the two index trees, and the catalog bijection with
all cataloged ids below the allocator counter (u64 values). -/
structure WF (s : Store) : Prop where
  sorted_idn : SortedTree s.tag_id_names
  sorted_nid : SortedTree s.tag_name_ids
  sorted_ti : SortedTree s.tag_items
  sorted_it : SortedTree s.item_tags
  keys_ti : IndexKeys s.tag_items
  keys_it : IndexKeys s.item_tags
  cat_idn : ∀ e ∈ s.tag_id_names,
    (∃ x, x < s.next_id ∧ x < 2 ^ 64 ∧ e.1 = toBytes x) ∧
      sledGet s.tag_name_ids e.2 = some e.1
  cat_nid : ∀ e ∈ s.tag_name_ids,
    (∃ x, x < s.next_id ∧ x < 2 ^ 64 ∧ e.2 = toBytes x) ∧
      sledGet s.tag_id_names e.2 = some e.1

/-- Index symmetry: the forward entry `tag‖item` is present exactly when the
reverse entry `item‖tag` is. -/
def Sym (s : Store) : Prop :=
  ∀ t i, (sledGet s.tag_items (compound_key t i)).isSome ↔
    (sledGet s.item_tags (compound_key i t)).isSome

/-- Store states reachable from a freshly opened empty store by the core
operations.  The `< 2 ^ 64` side conditions mirror the u64 type of the Rust
arguments and of sled's id counter. -/
inductive Reachable : Store → Prop where
  | empty : Reachable emptyStore
  | alloc {s : Store} : Reachable s → Reachable (Store.id s).2
  | tag {s : Store} (item t : Nat) : Reachable s → item < 2 ^ 64 → t < 2 ^ 64 →
      Reachable (Store.tag s item t)
  | untag {s : Store} (item t : Nat) : Reachable s → item < 2 ^ 64 → t < 2 ^ 64 →
      Reachable (Store.untag s item t)
  | tag_string {s s' : Store} (item : Nat) (tag_name : List Nat) : Reachable s →
      item < 2 ^ 64 → s.next_id < 2 ^ 64 →
      Store.tag_string s item tag_name = .ok s' → Reachable s'
  | remove_tag {s : Store} (i : Nat) : Reachable s → i < 2 ^ 64 →
      Reachable (Store.remove_tag s i).2

/-- The UTF-8 bytes of the tag name "Jazz" (spec Scenario A). -/
def jazzName : List Nat := [74, 97, 122, 122]

/-- The store obtained from a fresh store by `tag_string 1 "Jazz"`: item 1
gets the freshly created tag named "Jazz". -/
def demoStore : Store :=
  Store.tag
    (Store.update_tag { emptyStore with next_id := emptyStore.next_id + 1 }
      emptyStore.next_id jazzName)
    1 emptyStore.next_id

/-! ### Byte codec lemmas -/

theorem length_beBytes (w n : Nat) : (beBytes w n).length = w := by
  induction w generalizing n with
  | zero => rfl
  | succ w ih => simp [beBytes, ih]

theorem fromBeBytes_beBytes_of_lt (w : Nat) :
    ∀ n : Nat, n < 256 ^ w → fromBeBytes (beBytes w n) = n := by
  induction w with
  | zero =>
    intro n hn
    have hn0 : n = 0 := by simpa using hn
    subst hn0; rfl
  | succ w ih =>
    intro n _
    show (n / 256 ^ w) * 256 ^ (beBytes w (n % 256 ^ w)).length +
        fromBeBytes (beBytes w (n % 256 ^ w)) = n
    rw [length_beBytes, ih _ (Nat.mod_lt _ (by positivity)), Nat.mul_comm]
    exact Nat.div_add_mod n (256 ^ w)

theorem fromBe_toBytes (n : Nat) : fromBeBytes (toBytes n) = n := by
  show (n / 256 ^ 7) * 256 ^ (beBytes 7 (n % 256 ^ 7)).length +
      fromBeBytes (beBytes 7 (n % 256 ^ 7)) = n
  rw [length_beBytes, fromBeBytes_beBytes_of_lt 7 _ (Nat.mod_lt _ (by positivity)),
    Nat.mul_comm]
  exact Nat.div_add_mod n (256 ^ 7)

theorem toBytes_inj {a b : Nat} (h : toBytes a = toBytes b) : a = b := by
  rw [← fromBe_toBytes a, h, fromBe_toBytes]

theorem length_toBytes (n : Nat) : (toBytes n).length = 8 := length_beBytes 8 n

theorem validBytes_beBytes (w : Nat) :
    ∀ n : Nat, n < 256 ^ w → validBytes (beBytes w n) := by
  induction w with
  | zero => intro n _; intro b hb; simp [beBytes] at hb
  | succ w ih =>
    intro n hn b hb
    have hcons : beBytes (w + 1) n = n / 256 ^ w :: beBytes w (n % 256 ^ w) := rfl
    rw [hcons, List.mem_cons] at hb
    rcases hb with rfl | hb
    · have hlt : n < 256 * 256 ^ w := by
        calc n < 256 ^ (w + 1) := hn
        _ = 256 * 256 ^ w := by ring
      have hpos : 0 < 256 ^ w := by positivity
      rw [Nat.div_lt_iff_lt_mul hpos]
      omega
    · exact ih _ (Nat.mod_lt _ (by positivity)) b hb

theorem validBytes_toBytes {n : Nat} (h : n < 2 ^ 64) : validBytes (toBytes n) :=
  validBytes_beBytes 8 n (by norm_num at h ⊢; omega)

theorem fromBeBytes_lt (l : List Nat) (h : validBytes l) :
    fromBeBytes l < 256 ^ l.length := by
  induction l with
  | nil => simp [fromBeBytes]
  | cons b rest ih =>
    have hb : b < 256 := h b (List.mem_cons_self _ _)
    have hrest : fromBeBytes rest < 256 ^ rest.length :=
      ih (fun x hx => h x (List.mem_cons_of_mem _ hx))
    show b * 256 ^ rest.length + fromBeBytes rest < 256 ^ (rest.length + 1)
    calc b * 256 ^ rest.length + fromBeBytes rest
        < b * 256 ^ rest.length + 256 ^ rest.length := by omega
    _ = (b + 1) * 256 ^ rest.length := by ring
    _ ≤ 256 * 256 ^ rest.length := by
        have : b + 1 ≤ 256 := hb
        exact Nat.mul_le_mul_right _ this
    _ = 256 ^ (rest.length + 1) := by ring

theorem beBytes_fromBeBytes (l : List Nat) (h : validBytes l) :
    beBytes l.length (fromBeBytes l) = l := by
  induction l with
  | nil => rfl
  | cons b rest ih =>
    have hrest : fromBeBytes rest < 256 ^ rest.length :=
      fromBeBytes_lt rest (fun x hx => h x (List.mem_cons_of_mem _ hx))
    have hpos : 0 < 256 ^ rest.length := by positivity
    have hre : b * 256 ^ rest.length + fromBeBytes rest
        = fromBeBytes rest + 256 ^ rest.length * b := by ring
    have hdiv : (b * 256 ^ rest.length + fromBeBytes rest) / 256 ^ rest.length = b := by
      rw [hre, Nat.add_mul_div_left _ _ hpos, Nat.div_eq_of_lt hrest, Nat.zero_add]
    have hmod : (b * 256 ^ rest.length + fromBeBytes rest) % 256 ^ rest.length
        = fromBeBytes rest := by
      rw [hre, Nat.add_mul_mod_self_left, Nat.mod_eq_of_lt hrest]
    show (b * 256 ^ rest.length + fromBeBytes rest) / 256 ^ rest.length ::
        beBytes rest.length ((b * 256 ^ rest.length + fromBeBytes rest) % 256 ^ rest.length) =
        b :: rest
    rw [hdiv, hmod, ih (fun x hx => h x (List.mem_cons_of_mem _ hx))]

theorem toBytes_fromBeBytes {l : List Nat} (h8 : l.length = 8) (hv : validBytes l) :
    toBytes (fromBeBytes l) = l := by
  rw [toBytes, ← h8, beBytes_fromBeBytes l hv]

theorem fromBeBytes_lt_u64 {l : List Nat} (h8 : l.length = 8) (hv : validBytes l) :
    fromBeBytes l < 2 ^ 64 := by
  have h := fromBeBytes_lt l hv
  rw [h8] at h
  norm_num at h ⊢
  omega

/-! ### Byte-lexicographic order lemmas -/

theorem bytesLt_irrefl (l : List Nat) : bytesLt l l = false := by
  induction l with
  | nil => rfl
  | cons a as ih => simp [bytesLt, ih]

theorem bytesLt_ne {a b : List Nat} (h : bytesLt a b = true) : a ≠ b := by
  intro he
  rw [he, bytesLt_irrefl] at h
  exact Bool.false_ne_true h

theorem bytesLt_trans {a b c : List Nat} (h₁ : bytesLt a b = true)
    (h₂ : bytesLt b c = true) : bytesLt a c = true := by
  induction a generalizing b c with
  | nil =>
    cases b with
    | nil => simp [bytesLt] at h₁
    | cons y ys =>
      cases c with
      | nil => simp [bytesLt] at h₂
      | cons z zs => simp [bytesLt]
  | cons x xs ih =>
    cases b with
    | nil => simp [bytesLt] at h₁
    | cons y ys =>
      cases c with
      | nil => simp [bytesLt] at h₂
      | cons z zs =>
        simp only [bytesLt] at h₁ h₂ ⊢
        split_ifs at h₁ h₂ ⊢ with hxy hxy' hyz hyz' hxz hxz' <;>
          first
          | rfl
          | omega
          | (exact ih h₁ h₂)

theorem bytesLt_or {a b : List Nat} (h : a ≠ b) :
    bytesLt a b = true ∨ bytesLt b a = true := by
  induction a generalizing b with
  | nil =>
    cases b with
    | nil => exact absurd rfl h
    | cons y ys => left; simp [bytesLt]
  | cons x xs ih =>
    cases b with
    | nil => right; simp [bytesLt]
    | cons y ys =>
      by_cases hxy : x = y
      · subst hxy
        have hne : xs ≠ ys := by intro he; exact h (by rw [he])
        rcases ih hne with h' | h'
        · left; simp [bytesLt, h']
        · right; simp [bytesLt, h']
      · rcases Nat.lt_or_ge x y with hlt | hge
        · left; simp [bytesLt, hlt]
        · have hlt : y < x := by omega
          right; simp [bytesLt, hlt]

theorem bytesLt_append (p a b : List Nat) :
    bytesLt (p ++ a) (p ++ b) = bytesLt a b := by
  induction p with
  | nil => rfl
  | cons x ps ih => simp [bytesLt, ih]

theorem bytesLt_fromBeBytes {a b : List Nat} (hlen : a.length = b.length)
    (ha : validBytes a) (hb : validBytes b) (h : bytesLt a b = true) :
    fromBeBytes a < fromBeBytes b := by
  induction a generalizing b with
  | nil =>
    cases b with
    | nil => simp [bytesLt] at h
    | cons y ys => simp at hlen
  | cons x xs ih =>
    cases b with
    | nil => simp at hlen
    | cons y ys =>
      have hL : xs.length = ys.length := by simpa using hlen
      have hxsv : validBytes xs := fun z hz => ha z (List.mem_cons_of_mem _ hz)
      have hysv : validBytes ys := fun z hz => hb z (List.mem_cons_of_mem _ hz)
      have hfx : fromBeBytes xs < 256 ^ xs.length := fromBeBytes_lt xs hxsv
      show x * 256 ^ xs.length + fromBeBytes xs < y * 256 ^ ys.length + fromBeBytes ys
      simp only [bytesLt] at h
      split_ifs at h with hxy hxy'
      · have : (x + 1) * 256 ^ xs.length ≤ y * 256 ^ ys.length := by
          rw [← hL]
          exact Nat.mul_le_mul_right _ (by omega)
        have hstep : x * 256 ^ xs.length + fromBeBytes xs < (x + 1) * 256 ^ xs.length := by
          have : (x + 1) * 256 ^ xs.length = x * 256 ^ xs.length + 256 ^ xs.length := by ring
          omega
        omega
      · subst hxy'
        have := ih hL hxsv hysv h
        rw [← hL]
        omega

/-! ### Sled tree lemmas -/

theorem sledGet_some_mem {t : Tree} {k v : List Nat} (h : sledGet t k = some v) :
    (k, v) ∈ t := by
  induction t with
  | nil => simp [sledGet] at h
  | cons e rest ih =>
    obtain ⟨k', v'⟩ := e
    by_cases he : k' = k
    · subst he
      simp [sledGet] at h
      subst h
      exact List.mem_cons_self _ _
    · simp [sledGet, he] at h
      exact List.mem_cons_of_mem _ (ih h)

theorem mem_sledGet {t : Tree} (hs : SortedTree t) {k v : List Nat}
    (hm : (k, v) ∈ t) : sledGet t k = some v := by
  induction t with
  | nil => simp at hm
  | cons e rest ih =>
    obtain ⟨k', v'⟩ := e
    rw [SortedTree, List.pairwise_cons] at hs
    rcases List.mem_cons.mp hm with he | hm'
    · cases he
      simp [sledGet]
    · by_cases he : k' = k
      · subst he
        have hbl := hs.1 _ hm'
        exact absurd rfl (bytesLt_ne hbl)
      · simp [sledGet, he]
        exact ih hs.2 hm'

theorem sledGet_eq_none {t : Tree} {k : List Nat} (h : ∀ e ∈ t, e.1 ≠ k) :
    sledGet t k = none := by
  induction t with
  | nil => rfl
  | cons e rest ih =>
    obtain ⟨k', v'⟩ := e
    have hne : k' ≠ k := h (k', v') (List.mem_cons_self _ _)
    simp [sledGet, hne]
    exact ih (fun e he => h e (List.mem_cons_of_mem _ he))

theorem sledGet_insert_self (t : Tree) (k v : List Nat) :
    sledGet (sledInsert t k v) k = some v := by
  induction t with
  | nil => simp [sledInsert, sledGet]
  | cons e rest ih =>
    obtain ⟨k', v'⟩ := e
    by_cases h1 : bytesLt k k' = true
    · simp [sledInsert, h1, sledGet]
    · by_cases h2 : k = k'
      · subst h2
        simp [sledInsert, bytesLt_irrefl, sledGet]
      · have hne : k' ≠ k := fun he => h2 he.symm
        simp [sledInsert, h1, h2, sledGet, hne]
        exact ih

theorem sledGet_insert_ne (t : Tree) {k k' : List Nat} (v : List Nat)
    (h : k' ≠ k) : sledGet (sledInsert t k v) k' = sledGet t k' := by
  have hkk : k ≠ k' := fun he => h he.symm
  induction t with
  | nil => simp [sledInsert, sledGet, hkk]
  | cons e rest ih =>
    obtain ⟨k'', v''⟩ := e
    by_cases h1 : bytesLt k k'' = true
    · simp [sledInsert, h1, sledGet, hkk]
    · by_cases h2 : k = k''
      · subst h2
        simp [sledInsert, h1, sledGet, hkk]
      · simp [sledInsert, h1, h2, sledGet]
        split
        · rfl
        · exact ih

theorem sledGet_remove_ne (t : Tree) {k k' : List Nat} (h : k' ≠ k) :
    sledGet (sledRemove t k) k' = sledGet t k' := by
  induction t with
  | nil => rfl
  | cons e rest ih =>
    obtain ⟨k'', v''⟩ := e
    by_cases h1 : k'' = k
    · subst h1
      have : k'' ≠ k' := fun he => h he.symm
      simp [sledRemove, sledGet, this]
    · simp [sledRemove, h1, sledGet]
      split
      · rfl
      · exact ih

theorem sledGet_remove_self {t : Tree} (hs : SortedTree t) (k : List Nat) :
    sledGet (sledRemove t k) k = none := by
  induction t with
  | nil => rfl
  | cons e rest ih =>
    obtain ⟨k', v'⟩ := e
    rw [SortedTree, List.pairwise_cons] at hs
    by_cases h1 : k' = k
    · subst h1
      simp only [sledRemove, if_pos rfl]
      exact sledGet_eq_none (fun e he => Ne.symm (bytesLt_ne (hs.1 e he)))
    · simp [sledRemove, h1, sledGet]
      exact ih hs.2

theorem sledRemove_absent {t : Tree} {k : List Nat} (h : sledGet t k = none) :
    sledRemove t k = t := by
  induction t with
  | nil => rfl
  | cons e rest ih =>
    obtain ⟨k', v'⟩ := e
    by_cases h1 : k' = k
    · subst h1; simp [sledGet] at h
    · simp [sledGet, h1] at h
      simp [sledRemove, h1, ih h]

theorem mem_sledInsert {t : Tree} {k v : List Nat} {e : List Nat × List Nat}
    (h : e ∈ sledInsert t k v) : e = (k, v) ∨ e ∈ t := by
  induction t with
  | nil =>
    simp only [sledInsert] at h
    exact Or.inl (List.mem_singleton.mp h)
  | cons e' rest ih =>
    obtain ⟨k', v'⟩ := e'
    by_cases h1 : bytesLt k k' = true
    · simp only [sledInsert, if_pos h1] at h
      rcases List.mem_cons.mp h with rfl | h'
      · exact Or.inl rfl
      · exact Or.inr h'
    · by_cases h2 : k = k'
      · simp only [sledInsert, if_neg h1, if_pos h2] at h
        rcases List.mem_cons.mp h with rfl | h'
        · exact Or.inl rfl
        · exact Or.inr (List.mem_cons_of_mem _ h')
      · simp only [sledInsert, if_neg h1, if_neg h2] at h
        rcases List.mem_cons.mp h with rfl | h'
        · exact Or.inr (List.mem_cons_self _ _)
        · rcases ih h' with h'' | h''
          · exact Or.inl h''
          · exact Or.inr (List.mem_cons_of_mem _ h'')

theorem self_mem_sledInsert (t : Tree) (k v : List Nat) :
    (k, v) ∈ sledInsert t k v := by
  induction t with
  | nil => simp [sledInsert]
  | cons e rest ih =>
    obtain ⟨k', v'⟩ := e
    by_cases h1 : bytesLt k k' = true
    · simp only [sledInsert, if_pos h1]
      exact List.mem_cons_self _ _
    · by_cases h2 : k = k'
      · simp only [sledInsert, if_neg h1, if_pos h2]
        exact List.mem_cons_self _ _
      · simp only [sledInsert, if_neg h1, if_neg h2]
        exact List.mem_cons_of_mem _ ih

theorem sledRemove_sublist (t : Tree) (k : List Nat) : List.Sublist (sledRemove t k) t := by
  induction t with
  | nil => exact List.Sublist.refl _
  | cons e rest ih =>
    obtain ⟨k', v'⟩ := e
    by_cases h1 : k' = k
    · simp [sledRemove, h1]
    · simp [sledRemove, h1]
      exact ih

theorem mem_sledRemove {t : Tree} {k : List Nat} {e : List Nat × List Nat}
    (h : e ∈ sledRemove t k) : e ∈ t :=
  List.Sublist.mem h (sledRemove_sublist t k)

theorem sortedTree_insert {t : Tree} (hs : SortedTree t) (k v : List Nat) :
    SortedTree (sledInsert t k v) := by
  induction t with
  | nil => simp [sledInsert, SortedTree]
  | cons e rest ih =>
    obtain ⟨k', v'⟩ := e
    rw [SortedTree, List.pairwise_cons] at hs
    by_cases h1 : bytesLt k k' = true
    · rw [sledInsert, if_pos h1, SortedTree, List.pairwise_cons]
      constructor
      · intro e he
        rcases List.mem_cons.mp he with rfl | he'
        · exact h1
        · exact bytesLt_trans h1 (hs.1 e he')
      · rw [SortedTree, List.pairwise_cons] at *
        exact ⟨hs.1, hs.2⟩
    · by_cases h2 : k = k'
      · subst h2
        rw [sledInsert, if_neg h1, if_pos rfl, SortedTree, List.pairwise_cons]
        exact ⟨hs.1, hs.2⟩
      · rw [sledInsert, if_neg h1, if_neg h2, SortedTree, List.pairwise_cons]
        constructor
        · intro e he
          rcases mem_sledInsert he with rfl | he'
          · rcases bytesLt_or h2 with h' | h'
            · exact absurd h' h1
            · exact h'
          · exact hs.1 e he'
        · exact ih hs.2

theorem sortedTree_remove {t : Tree} (hs : SortedTree t) (k : List Nat) :
    SortedTree (sledRemove t k) :=
  List.Pairwise.sublist (sledRemove_sublist t k) hs

theorem not_mem_sledRemove {t : Tree} (hs : SortedTree t) (k v : List Nat) :
    (k, v) ∉ sledRemove t k := by
  intro hm
  have := mem_sledGet (sortedTree_remove hs k) hm
  rw [sledGet_remove_self hs] at this
  exact Option.noConfusion this

theorem sledInsert_sledInsert (t : Tree) (k v : List Nat) :
    sledInsert (sledInsert t k v) k v = sledInsert t k v := by
  induction t with
  | nil =>
    simp [sledInsert, bytesLt_irrefl]
  | cons e rest ih =>
    obtain ⟨k', v'⟩ := e
    by_cases h1 : bytesLt k k' = true
    · rw [sledInsert, if_pos h1]
      rw [sledInsert, bytesLt_irrefl]
      simp
    · by_cases h2 : k = k'
      · rw [sledInsert, if_neg h1, if_pos h2]
        rw [sledInsert, bytesLt_irrefl]
        simp
      · rw [sledInsert, if_neg h1, if_neg h2]
        rw [sledInsert, if_neg h1, if_neg h2, ih]

/-! ### Compound key and scan lemmas -/

theorem length_compound_key (a b : Nat) : (compound_key a b).length = 16 := by
  simp [compound_key, length_toBytes]

theorem validBytes_compound_key {a b : Nat} (ha : a < 2 ^ 64) (hb : b < 2 ^ 64) :
    validBytes (compound_key a b) := by
  intro x hx
  rcases List.mem_append.mp hx with hx | hx
  · exact validBytes_toBytes ha x hx
  · exact validBytes_toBytes hb x hx

theorem drop_compound_key (a b : Nat) : (compound_key a b).drop 8 = toBytes b :=
  List.drop_left' (length_toBytes a)

theorem compound_key_inj {a b c d : Nat} (h : compound_key a b = compound_key c d) :
    a = c ∧ b = d := by
  have hlen : (toBytes a).length = (toBytes c).length := by
    rw [length_toBytes, length_toBytes]
  obtain ⟨h1, h2⟩ := List.append_inj h hlen
  exact ⟨toBytes_inj h1, toBytes_inj h2⟩

theorem decode_trailing_eq {el : List Nat × List Nat} (h : el.1.length = 16) :
    decode_trailing el = .ok (fromBeBytes (el.1.drop 8)) := by
  simp [decode_trailing, must_u8_16, h, from_compound_key]

theorem mem_sledScan {t : Tree} {p : List Nat} {e : List Nat × List Nat} :
    e ∈ sledScan t p ↔ e ∈ t ∧ List.IsPrefix p e.1 := by
  simp [sledScan, List.mem_filter]

theorem key_split_of_pre {p k : List Nat} (hp : List.IsPrefix p k) :
    k = p ++ k.drop p.length :=
  (List.prefix_iff_eq_append.mp hp).symm

theorem sortedTree_sledScan {t : Tree} (hs : SortedTree t) (p : List Nat) :
    (sledScan t p).Pairwise (fun e₁ e₂ => bytesLt e₁.1 e₂.1 = true) :=
  List.Pairwise.filter _ hs

/-- Central characterization of the query iterators: the decoded scan of a
well-formed index tree on prefix `toBytes a` yields `b` exactly when the
compound key `a‖b` is present in the tree. -/
theorem ok_mem_scan_iff {t : Tree} (hs : SortedTree t) (hk : IndexKeys t) (a b : Nat) :
    Except.ok b ∈ (sledScan t (toBytes a)).map decode_trailing ↔
      (sledGet t (compound_key a b)).isSome := by
  constructor
  · intro hmem
    rcases List.mem_map.mp hmem with ⟨el, hel, hdec⟩
    rcases mem_sledScan.mp hel with ⟨helt, hpre⟩
    obtain ⟨hlen, hval⟩ := hk el helt
    rw [decode_trailing_eq hlen] at hdec
    have hb : fromBeBytes (el.1.drop 8) = b := by
      injection hdec
    have hkey : el.1 = toBytes a ++ el.1.drop 8 := by
      have hsplit := key_split_of_pre hpre
      rwa [length_toBytes] at hsplit
    have hdlen : (el.1.drop 8).length = 8 := by
      rw [List.length_drop, hlen]
    have hdval : validBytes (el.1.drop 8) := fun x hx =>
      hval x (by rw [hkey]; exact List.mem_append_right _ hx)
    have hdrop : el.1.drop 8 = toBytes b := by
      rw [← hb]
      exact (toBytes_fromBeBytes hdlen hdval).symm
    have hck : el.1 = compound_key a b := by
      rw [compound_key, ← hdrop]
      exact hkey
    have hget : sledGet t (compound_key a b) = some el.2 := by
      rw [← hck]
      exact mem_sledGet hs helt
    rw [hget]
    rfl
  · intro hsome
    rcases Option.isSome_iff_exists.mp hsome with ⟨v, hv⟩
    have hmem : (compound_key a b, v) ∈ t := sledGet_some_mem hv
    apply List.mem_map.mpr
    refine ⟨(compound_key a b, v), mem_sledScan.mpr ⟨hmem, ?_⟩, ?_⟩
    · exact List.prefix_append _ _
    · rw [decode_trailing_eq (length_compound_key a b), drop_compound_key, fromBe_toBytes]

/-- Decoded prefix scans of a well-formed index tree are strictly ascending. -/
theorem scan_decode_ascending {t : Tree} (hs : SortedTree t) (hk : IndexKeys t) (a : Nat) :
    ∃ l : List Nat, (sledScan t (toBytes a)).map decode_trailing = l.map Except.ok ∧
      l.Pairwise (· < ·) := by
  refine ⟨(sledScan t (toBytes a)).map (fun el => fromBeBytes (el.1.drop 8)), ?_, ?_⟩
  · rw [List.map_map]
    apply List.map_congr_left
    intro el hel
    rcases mem_sledScan.mp hel with ⟨helt, _⟩
    simpa using decode_trailing_eq (hk el helt).1
  · rw [List.pairwise_map]
    apply List.Pairwise.imp_of_mem ?_ (sortedTree_sledScan hs (toBytes a))
    intro e₁ e₂ h₁ h₂ hlt
    obtain ⟨hl₁, hv₁⟩ := hk e₁ (mem_sledScan.mp h₁).1
    obtain ⟨hl₂, hv₂⟩ := hk e₂ (mem_sledScan.mp h₂).1
    have hk₁ : e₁.1 = toBytes a ++ e₁.1.drop 8 := by
      have hsplit := key_split_of_pre (mem_sledScan.mp h₁).2
      rwa [length_toBytes] at hsplit
    have hk₂ : e₂.1 = toBytes a ++ e₂.1.drop 8 := by
      have hsplit := key_split_of_pre (mem_sledScan.mp h₂).2
      rwa [length_toBytes] at hsplit
    rw [hk₁, hk₂, bytesLt_append] at hlt
    have hd₁ : (e₁.1.drop 8).length = 8 := by rw [List.length_drop, hl₁]
    have hd₂ : (e₂.1.drop 8).length = 8 := by rw [List.length_drop, hl₂]
    have hvd₁ : validBytes (e₁.1.drop 8) := fun x hx =>
      hv₁ x (by rw [hk₁]; exact List.mem_append_right _ hx)
    have hvd₂ : validBytes (e₂.1.drop 8) := fun x hx =>
      hv₂ x (by rw [hk₂]; exact List.mem_append_right _ hx)
    exact bytesLt_fromBeBytes (by rw [hd₁, hd₂]) hvd₁ hvd₂ hlt

/-! ### Preservation of well-formedness and symmetry by the operations -/

theorem wf_empty : WF emptyStore := by
  refine ⟨?_, ?_, ?_, ?_, ?_, ?_, ?_, ?_⟩ <;>
    simp [emptyStore, SortedTree, IndexKeys]

theorem sym_empty : Sym emptyStore := by
  intro t i
  simp [emptyStore, sledGet]

theorem wf_alloc {s : Store} (hw : WF s) : WF (Store.id s).2 := by
  refine ⟨hw.sorted_idn, hw.sorted_nid, hw.sorted_ti, hw.sorted_it, hw.keys_ti,
    hw.keys_it, ?_, ?_⟩
  · intro e he
    obtain ⟨⟨x, hx1, hx2, hx3⟩, hg⟩ := hw.cat_idn e he
    exact ⟨⟨x, by simp only [Store.id]; omega, hx2, hx3⟩, hg⟩
  · intro e he
    obtain ⟨⟨x, hx1, hx2, hx3⟩, hg⟩ := hw.cat_nid e he
    exact ⟨⟨x, by simp only [Store.id]; omega, hx2, hx3⟩, hg⟩

theorem sym_alloc {s : Store} (hy : Sym s) : Sym (Store.id s).2 := fun a b => hy a b

theorem wf_tag {s : Store} (hw : WF s) {item t : Nat} (hi : item < 2 ^ 64)
    (ht : t < 2 ^ 64) : WF (Store.tag s item t) := by
  refine ⟨hw.sorted_idn, hw.sorted_nid, ?_, ?_, ?_, ?_, hw.cat_idn, hw.cat_nid⟩
  · exact sortedTree_insert hw.sorted_ti _ _
  · exact sortedTree_insert hw.sorted_it _ _
  · intro e he
    rcases mem_sledInsert he with rfl | he'
    · exact ⟨length_compound_key _ _, validBytes_compound_key ht hi⟩
    · exact hw.keys_ti e he'
  · intro e he
    rcases mem_sledInsert he with rfl | he'
    · exact ⟨length_compound_key _ _, validBytes_compound_key hi ht⟩
    · exact hw.keys_it e he'

theorem sym_tag {s : Store} (hy : Sym s) (item t : Nat) : Sym (Store.tag s item t) := by
  intro a b
  simp only [Store.tag]
  by_cases hab : a = t ∧ b = item
  · obtain ⟨rfl, rfl⟩ := hab
    rw [sledGet_insert_self, sledGet_insert_self]
  · have h1 : compound_key a b ≠ compound_key t item := fun he =>
      hab ⟨(compound_key_inj he).1, (compound_key_inj he).2⟩
    have h2 : compound_key b a ≠ compound_key item t := fun he =>
      hab ⟨(compound_key_inj he).2, (compound_key_inj he).1⟩
    rw [sledGet_insert_ne _ _ h1, sledGet_insert_ne _ _ h2]
    exact hy a b

theorem wf_untag {s : Store} (hw : WF s) (item t : Nat) : WF (Store.untag s item t) := by
  refine ⟨hw.sorted_idn, hw.sorted_nid, ?_, ?_, ?_, ?_, hw.cat_idn, hw.cat_nid⟩
  · exact sortedTree_remove hw.sorted_ti _
  · exact sortedTree_remove hw.sorted_it _
  · exact fun e he => hw.keys_ti e (mem_sledRemove he)
  · exact fun e he => hw.keys_it e (mem_sledRemove he)

theorem sym_untag {s : Store} (hw : WF s) (hy : Sym s) (item t : Nat) :
    Sym (Store.untag s item t) := by
  intro a b
  simp only [Store.untag]
  by_cases hab : a = t ∧ b = item
  · obtain ⟨rfl, rfl⟩ := hab
    rw [sledGet_remove_self hw.sorted_ti, sledGet_remove_self hw.sorted_it]
  · have h1 : compound_key a b ≠ compound_key t item := fun he =>
      hab ⟨(compound_key_inj he).1, (compound_key_inj he).2⟩
    have h2 : compound_key b a ≠ compound_key item t := fun he =>
      hab ⟨(compound_key_inj he).2, (compound_key_inj he).1⟩
    rw [sledGet_remove_ne _ h1, sledGet_remove_ne _ h2]
    exact hy a b

theorem wf_update_fresh {s : Store} (hw : WF s) {tag_name : List Nat}
    (hn : s.next_id < 2 ^ 64)
    (hg : sledGet s.tag_name_ids tag_name = none) :
    WF (Store.update_tag { s with next_id := s.next_id + 1 } s.next_id tag_name) := by
  have hgoal : Store.update_tag { s with next_id := s.next_id + 1 } s.next_id tag_name =
      { s with
        next_id := s.next_id + 1
        tag_id_names := sledInsert s.tag_id_names (toBytes s.next_id) tag_name
        tag_name_ids := sledInsert s.tag_name_ids tag_name (toBytes s.next_id) } := rfl
  rw [hgoal]
  refine ⟨?_, ?_, hw.sorted_ti, hw.sorted_it, hw.keys_ti, hw.keys_it, ?_, ?_⟩
  · exact sortedTree_insert hw.sorted_idn _ _
  · exact sortedTree_insert hw.sorted_nid _ _
  · intro e he
    rcases mem_sledInsert he with rfl | he'
    · refine ⟨⟨s.next_id, show s.next_id < s.next_id + 1 from Nat.lt_succ_self _, hn, rfl⟩, ?_⟩
      exact sledGet_insert_self _ _ _
    · obtain ⟨⟨x, hx1, hx2, hx3⟩, hge⟩ := hw.cat_idn e he'
      refine ⟨⟨x, show x < s.next_id + 1 by omega, hx2, hx3⟩, ?_⟩
      have hne : e.2 ≠ tag_name := by
        intro he2
        rw [he2] at hge
        rw [hg] at hge
        exact Option.noConfusion hge
      show sledGet (sledInsert s.tag_name_ids tag_name (toBytes s.next_id)) e.2 = some e.1
      rw [sledGet_insert_ne _ _ hne]
      exact hge
  · intro e he
    rcases mem_sledInsert he with rfl | he'
    · refine ⟨⟨s.next_id, show s.next_id < s.next_id + 1 from Nat.lt_succ_self _, hn, rfl⟩, ?_⟩
      exact sledGet_insert_self _ _ _
    · obtain ⟨⟨x, hx1, hx2, hx3⟩, hge⟩ := hw.cat_nid e he'
      refine ⟨⟨x, show x < s.next_id + 1 by omega, hx2, hx3⟩, ?_⟩
      have hne : e.2 ≠ toBytes s.next_id := by
        intro he2
        rw [hx3] at he2
        have := toBytes_inj he2
        omega
      show sledGet (sledInsert s.tag_id_names (toBytes s.next_id) tag_name) e.2 = some e.1
      rw [sledGet_insert_ne _ _ hne]
      exact hge

/-! ### Branch equations for the fallible operations -/

theorem tag_string_found_ok {s : Store} {item : Nat} {tag_name tag_vec : List Nat}
    (hg : sledGet s.tag_name_ids tag_name = some tag_vec) (hlen : tag_vec.length = 8) :
    Store.tag_string s item tag_name = .ok (Store.tag s item (fromBeBytes tag_vec)) := by
  rw [Store.tag_string, hg]
  simp [must_u8_8, hlen]

theorem tag_string_found_bad {s : Store} {item : Nat} {tag_name tag_vec : List Nat}
    (hg : sledGet s.tag_name_ids tag_name = some tag_vec) (hlen : tag_vec.length ≠ 8) :
    Store.tag_string s item tag_name = .error .InternalError := by
  rw [Store.tag_string, hg]
  simp [must_u8_8, hlen]

theorem tag_string_fresh_eq {s : Store} (item : Nat) {tag_name : List Nat}
    (hg : sledGet s.tag_name_ids tag_name = none) :
    Store.tag_string s item tag_name =
      .ok (Store.tag (Store.update_tag { s with next_id := s.next_id + 1 } s.next_id tag_name)
        item s.next_id) := by
  rw [Store.tag_string, hg]

theorem get_tag_id_none {s : Store} {tag_name : List Nat}
    (hg : sledGet s.tag_name_ids tag_name = none) :
    Store.get_tag_id s tag_name = .ok none := by
  rw [Store.get_tag_id, hg]

theorem get_tag_id_found {s : Store} {tag_name vec : List Nat}
    (hg : sledGet s.tag_name_ids tag_name = some vec) (hlen : vec.length = 8) :
    Store.get_tag_id s tag_name = .ok (some (fromBeBytes vec)) := by
  rw [Store.get_tag_id, hg]
  simp [must_u8_8, hlen]

theorem wf_tag_string {s s' : Store} (hw : WF s) {item : Nat} {tag_name : List Nat}
    (hi : item < 2 ^ 64) (hn : s.next_id < 2 ^ 64)
    (h : Store.tag_string s item tag_name = .ok s') : WF s' := by
  cases hg : sledGet s.tag_name_ids tag_name with
  | some tag_vec =>
    obtain ⟨⟨x, hx1, hx2, hx3⟩, _⟩ := hw.cat_nid (tag_name, tag_vec) (sledGet_some_mem hg)
    have hx3' : tag_vec = toBytes x := hx3
    have hlen : tag_vec.length = 8 := by
      rw [hx3']
      exact length_toBytes x
    rw [tag_string_found_ok hg hlen] at h
    injection h with h
    subst h
    have hfb : fromBeBytes tag_vec < 2 ^ 64 := by
      rw [hx3', fromBe_toBytes]
      exact hx2
    exact wf_tag hw hi hfb
  | none =>
    rw [tag_string_fresh_eq item hg] at h
    injection h with h
    subst h
    exact wf_tag (wf_update_fresh hw hn hg) hi hn

theorem sym_tag_string {s s' : Store} (hy : Sym s) {item : Nat} {tag_name : List Nat}
    (h : Store.tag_string s item tag_name = .ok s') : Sym s' := by
  cases hg : sledGet s.tag_name_ids tag_name with
  | some tag_vec =>
    by_cases hlen : tag_vec.length = 8
    · rw [tag_string_found_ok hg hlen] at h
      injection h with h
      subst h
      exact sym_tag hy _ _
    · rw [tag_string_found_bad hg hlen] at h
      exact absurd h (by simp)
  | none =>
    rw [tag_string_fresh_eq item hg] at h
    injection h with h
    subst h
    exact sym_tag (fun a b => hy a b) _ _

theorem index_unchanged_remove_tag (s : Store) (i : Nat) :
    (Store.remove_tag s i).2.tag_items = s.tag_items ∧
      (Store.remove_tag s i).2.item_tags = s.item_tags := by
  rw [Store.remove_tag]
  cases sledGet s.tag_id_names (toBytes i) <;> simp

theorem sym_remove_tag {s : Store} (hy : Sym s) (i : Nat) :
    Sym (Store.remove_tag s i).2 := by
  intro a b
  rw [(index_unchanged_remove_tag s i).1, (index_unchanged_remove_tag s i).2]
  exact hy a b

theorem wf_remove_tag {s : Store} (hw : WF s) (i : Nat) :
    WF (Store.remove_tag s i).2 := by
  rw [Store.remove_tag]
  cases hg : sledGet s.tag_id_names (toBytes i) with
  | none =>
    simp only
    rw [sledRemove_absent hg]
    exact hw
  | some old_name =>
    simp only
    have hmem : (toBytes i, old_name) ∈ s.tag_id_names := sledGet_some_mem hg
    have hcat := hw.cat_idn (toBytes i, old_name) hmem
    refine ⟨?_, ?_, hw.sorted_ti, hw.sorted_it, hw.keys_ti, hw.keys_it, ?_, ?_⟩
    · exact sortedTree_remove hw.sorted_idn _
    · exact sortedTree_remove hw.sorted_nid _
    · intro e he
      have he' := mem_sledRemove he
      obtain ⟨⟨x, hx1, hx2, hx3⟩, hge⟩ := hw.cat_idn e he'
      refine ⟨⟨x, hx1, hx2, hx3⟩, ?_⟩
      have hne : e.2 ≠ old_name := by
        intro he2
        rw [he2] at hge
        have h1 : e.1 = toBytes i := by
          have := hcat.2
          rw [this] at hge
          exact (Option.some.inj hge).symm
        have : e = (toBytes i, old_name) := Prod.ext h1 he2
        rw [this] at he
        exact not_mem_sledRemove hw.sorted_idn _ _ he
      rw [sledGet_remove_ne _ hne]
      exact hge
    · intro e he
      have he' := mem_sledRemove he
      obtain ⟨⟨x, hx1, hx2, hx3⟩, hge⟩ := hw.cat_nid e he'
      refine ⟨⟨x, hx1, hx2, hx3⟩, ?_⟩
      have hne : e.2 ≠ toBytes i := by
        intro he2
        rw [he2, hg] at hge
        have h1 : e.1 = old_name := (Option.some.inj hge).symm
        have : e = (old_name, toBytes i) := Prod.ext h1 he2
        rw [this] at he
        exact not_mem_sledRemove hw.sorted_nid _ _ he
      rw [sledGet_remove_ne _ hne]
      exact hge

/-- Every reachable store state is well-formed and index-symmetric. -/
theorem reachable_wf_sym {s : Store} (h : Reachable s) : WF s ∧ Sym s := by
  induction h with
  | empty => exact ⟨wf_empty, sym_empty⟩
  | alloc _ ih => exact ⟨wf_alloc ih.1, sym_alloc ih.2⟩
  | tag item t _ hi ht ih => exact ⟨wf_tag ih.1 hi ht, sym_tag ih.2 _ _⟩
  | untag item t _ hi ht ih => exact ⟨wf_untag ih.1 _ _, sym_untag ih.1 ih.2 _ _⟩
  | tag_string item tag_name _ hi hn hok ih =>
    exact ⟨wf_tag_string ih.1 hi hn hok, sym_tag_string ih.2 hok⟩
  | remove_tag i _ hi ih => exact ⟨wf_remove_tag ih.1 _, sym_remove_tag ih.2 _⟩

/-! ### Query corollaries and remove_tag branch equations -/

theorem get_item_tag_ids_mem_iff {s : Store} (hw : WF s) (i t : Nat) :
    Except.ok t ∈ Store.get_item_tag_ids s i ↔
      (sledGet s.item_tags (compound_key i t)).isSome := by
  rw [Store.get_item_tag_ids]
  exact ok_mem_scan_iff hw.sorted_it hw.keys_it i t

theorem get_tag_item_ids_mem_iff {s : Store} (hw : WF s) (t i : Nat) :
    Except.ok i ∈ Store.get_tag_item_ids s t ↔
      (sledGet s.tag_items (compound_key t i)).isSome := by
  rw [Store.get_tag_item_ids]
  exact ok_mem_scan_iff hw.sorted_ti hw.keys_ti t i

theorem remove_tag_absent {s : Store} {i : Nat}
    (hg : sledGet s.tag_id_names (toBytes i) = none) :
    Store.remove_tag s i =
      (.error (.NotFound i),
        { s with tag_id_names := sledRemove s.tag_id_names (toBytes i) }) := by
  rw [Store.remove_tag, hg]

theorem remove_tag_found {s : Store} {i : Nat} {old_name : List Nat}
    (hg : sledGet s.tag_id_names (toBytes i) = some old_name) :
    Store.remove_tag s i =
      (.ok (), { s with
        tag_id_names := sledRemove s.tag_id_names (toBytes i)
        tag_name_ids := sledRemove s.tag_name_ids old_name }) := by
  rw [Store.remove_tag, hg]

theorem get_tag_id_inv {s : Store} {tag_name : List Nat} {X : Nat}
    (h : Store.get_tag_id s tag_name = .ok (some X)) :
    ∃ v, sledGet s.tag_name_ids tag_name = some v ∧ v.length = 8 ∧ fromBeBytes v = X := by
  cases hg : sledGet s.tag_name_ids tag_name with
  | none =>
    rw [get_tag_id_none hg] at h
    exact absurd h (by simp)
  | some vec =>
    by_cases hlen : vec.length = 8
    · rw [get_tag_id_found hg hlen] at h
      exact ⟨vec, rfl, hlen, Option.some.inj (Except.ok.inj h)⟩
    · rw [Store.get_tag_id, hg] at h
      simp [must_u8_8, hlen] at h

/-- After `tag`, the pairing is visible in both query iterators, and after a
subsequent `untag` it is visible in neither. -/
theorem tag_mem_queries {s : Store} (hw : WF s) {item t : Nat} (hi : item < 2 ^ 64)
    (ht : t < 2 ^ 64) :
    Except.ok t ∈ Store.get_item_tag_ids (Store.tag s item t) item ∧
    Except.ok item ∈ Store.get_tag_item_ids (Store.tag s item t) t ∧
    Except.ok t ∉ Store.get_item_tag_ids (Store.untag (Store.tag s item t) item t) item ∧
    Except.ok item ∉ Store.get_tag_item_ids (Store.untag (Store.tag s item t) item t) t := by
  have hw1 : WF (Store.tag s item t) := wf_tag hw hi ht
  have hw2 : WF (Store.untag (Store.tag s item t) item t) := wf_untag hw1 _ _
  refine ⟨?_, ?_, ?_, ?_⟩
  · rw [get_item_tag_ids_mem_iff hw1]
    show (sledGet (sledInsert s.item_tags (compound_key item t) [])
      (compound_key item t)).isSome
    rw [sledGet_insert_self]
    rfl
  · rw [get_tag_item_ids_mem_iff hw1]
    show (sledGet (sledInsert s.tag_items (compound_key t item) [])
      (compound_key t item)).isSome
    rw [sledGet_insert_self]
    rfl
  · rw [get_item_tag_ids_mem_iff hw2]
    show ¬(sledGet (sledRemove (Store.tag s item t).item_tags (compound_key item t))
      (compound_key item t)).isSome
    rw [sledGet_remove_self hw1.sorted_it]
    simp
  · rw [get_tag_item_ids_mem_iff hw2]
    show ¬(sledGet (sledRemove (Store.tag s item t).tag_items (compound_key t item))
      (compound_key t item)).isSome
    rw [sledGet_remove_self hw1.sorted_ti]
    simp

/-! ### The claims -/

/-- C1: for every item `item` and tag name `tag_name`, after `tag_string s item
tag_name`, `get_item_tag_ids item` contains the tag id cataloged for
`tag_name` and `get_tag_item_ids` of that id contains `item`; after a
subsequent `untag item id`, neither sequence contains the respective
element. -/
theorem round_trip (s : Store) (item : Nat) (tag_name : List Nat)
    (hw : WF s) (hi : item < 2 ^ 64) (hn : s.next_id < 2 ^ 64) :
    ∃ s₁ t, Store.tag_string s item tag_name = .ok s₁ ∧
      Store.get_tag_id s₁ tag_name = .ok (some t) ∧
      Except.ok t ∈ Store.get_item_tag_ids s₁ item ∧
      Except.ok item ∈ Store.get_tag_item_ids s₁ t ∧
      Except.ok t ∉ Store.get_item_tag_ids (Store.untag s₁ item t) item ∧
      Except.ok item ∉ Store.get_tag_item_ids (Store.untag s₁ item t) t := by
  cases hg : sledGet s.tag_name_ids tag_name with
  | some tag_vec =>
    obtain ⟨⟨x, hx1, hx2, hx3⟩, _⟩ := hw.cat_nid (tag_name, tag_vec) (sledGet_some_mem hg)
    have hx3' : tag_vec = toBytes x := hx3
    have hlen : tag_vec.length = 8 := by
      rw [hx3']
      exact length_toBytes x
    have hfb : fromBeBytes tag_vec = x := by
      rw [hx3', fromBe_toBytes]
    refine ⟨Store.tag s item x, x, ?_, ?_, (tag_mem_queries hw hi hx2).1,
      (tag_mem_queries hw hi hx2).2.1, (tag_mem_queries hw hi hx2).2.2.1,
      (tag_mem_queries hw hi hx2).2.2.2⟩
    · rw [tag_string_found_ok hg hlen, hfb]
    · have hg1 : sledGet (Store.tag s item x).tag_name_ids tag_name = some tag_vec := hg
      rw [get_tag_id_found hg1 hlen, hfb]
  | none =>
    have hw2 : WF (Store.update_tag { s with next_id := s.next_id + 1 } s.next_id tag_name) :=
      wf_update_fresh hw hn hg
    refine ⟨_, s.next_id, tag_string_fresh_eq item hg, ?_, (tag_mem_queries hw2 hi hn).1,
      (tag_mem_queries hw2 hi hn).2.1, (tag_mem_queries hw2 hi hn).2.2.1,
      (tag_mem_queries hw2 hi hn).2.2.2⟩
    have hg1 : sledGet (Store.tag
        (Store.update_tag { s with next_id := s.next_id + 1 } s.next_id tag_name)
        item s.next_id).tag_name_ids tag_name = some (toBytes s.next_id) :=
      sledGet_insert_self _ _ _
    rw [get_tag_id_found hg1 (length_toBytes _), fromBe_toBytes]

theorem round_trip_witness :
    ∃ s₁ t, Store.tag_string emptyStore 1 jazzName = .ok s₁ ∧
      Store.get_tag_id s₁ jazzName = .ok (some t) ∧
      Except.ok t ∈ Store.get_item_tag_ids s₁ 1 ∧
      Except.ok 1 ∈ Store.get_tag_item_ids s₁ t ∧
      Except.ok t ∉ Store.get_item_tag_ids (Store.untag s₁ 1 t) 1 ∧
      Except.ok 1 ∉ Store.get_tag_item_ids (Store.untag s₁ 1 t) t :=
  round_trip emptyStore 1 jazzName wf_empty (by decide) (by decide)

/-- C2: index symmetry holds in every store state reachable from an empty
store by the core operations: the forward entry `tag‖item` is present in
`tag_items` exactly when the reverse entry `item‖tag` is present in
`item_tags`, equivalently `item` is yielded by `get_tag_item_ids tag` exactly
when `tag` is yielded by `get_item_tag_ids item`. -/
theorem index_symmetry {s : Store} (hr : Reachable s) (item t : Nat)
    (hi : item < 2 ^ 64) (ht : t < 2 ^ 64) :
    ((sledGet s.tag_items (compound_key t item)).isSome ↔
      (sledGet s.item_tags (compound_key item t)).isSome) ∧
    (Except.ok item ∈ Store.get_tag_item_ids s t ↔
      Except.ok t ∈ Store.get_item_tag_ids s item) := by
  obtain ⟨hw, hy⟩ := reachable_wf_sym hr
  refine ⟨hy t item, ?_⟩
  rw [get_tag_item_ids_mem_iff hw, get_item_tag_ids_mem_iff hw]
  exact hy t item

theorem index_symmetry_witness :
    ((sledGet (Store.tag emptyStore 1 2).tag_items (compound_key 2 1)).isSome ↔
      (sledGet (Store.tag emptyStore 1 2).item_tags (compound_key 1 2)).isSome) ∧
    (Except.ok 1 ∈ Store.get_tag_item_ids (Store.tag emptyStore 1 2) 2 ↔
      Except.ok 2 ∈ Store.get_item_tag_ids (Store.tag emptyStore 1 2) 1) :=
  index_symmetry (Reachable.tag 1 2 Reachable.empty (by decide) (by decide)) 1 2
    (by decide) (by decide)

/-- C3: in every reachable store state the catalog is a bijection: whenever
`get_tag_id` resolves a name to id `X`, the id→name tree maps `X` back to
exactly that name, and no other name resolves to `X`. -/
theorem catalog_bijection {s : Store} (hr : Reachable s) :
    ∀ tag_name X, Store.get_tag_id s tag_name = .ok (some X) →
      sledGet s.tag_id_names (toBytes X) = some tag_name ∧
      ∀ other, Store.get_tag_id s other = .ok (some X) → other = tag_name := by
  obtain ⟨hw, -⟩ := reachable_wf_sym hr
  intro tag_name X hX
  obtain ⟨v, hv, hlen8, hfbX⟩ := get_tag_id_inv hX
  obtain ⟨⟨x, hx1, hx2, hx3⟩, hg2⟩ := hw.cat_nid (tag_name, v) (sledGet_some_mem hv)
  have hx3' : v = toBytes x := hx3
  have hg2' : sledGet s.tag_id_names v = some tag_name := hg2
  have hXx : X = x := by
    rw [← hfbX, hx3', fromBe_toBytes]
  have htb : toBytes X = v := by
    rw [hXx, hx3']
  constructor
  · rw [htb]
    exact hg2'
  · intro other hother
    obtain ⟨v', hv', hlen8', hfbX'⟩ := get_tag_id_inv hother
    obtain ⟨⟨x2, hy1, hy2, hy3⟩, hg3⟩ := hw.cat_nid (other, v') (sledGet_some_mem hv')
    have hb3 : v' = toBytes x2 := hy3
    have hg3' : sledGet s.tag_id_names v' = some other := hg3
    have hXx2 : X = x2 := by
      rw [← hfbX', hb3, fromBe_toBytes]
    have hvv : v' = v := by
      rw [hb3, ← hXx2, htb]
    rw [hvv, hg2'] at hg3'
    exact (Option.some.inj hg3').symm

theorem catalog_bijection_witness :
    sledGet demoStore.tag_id_names (toBytes 1) = some jazzName ∧
    ∀ other, Store.get_tag_id demoStore other = .ok (some 1) → other = jazzName :=
  catalog_bijection (Reachable.tag_string 1 jazzName Reachable.empty (by decide)
    (by decide) (tag_string_fresh_eq 1 rfl)) jazzName 1 rfl

/-- C4: `tag` is idempotent: tagging an already-tagged pair yields exactly the
same store state, in which the single forward and the single reverse entry
each carry the empty value. -/
theorem tag_idempotent (s : Store) (item t : Nat) :
    Store.tag (Store.tag s item t) item t = Store.tag s item t ∧
    sledGet (Store.tag s item t).tag_items (compound_key t item) = some [] ∧
    sledGet (Store.tag s item t).item_tags (compound_key item t) = some [] := by
  refine ⟨?_, sledGet_insert_self _ _ _, sledGet_insert_self _ _ _⟩
  simp only [Store.tag, sledInsert_sledInsert]

/-- C5: for every well-formed store state, `get_tag_item_ids` yields item ids
in strictly ascending numeric order and `get_item_tag_ids` yields tag ids in
strictly ascending numeric order. -/
theorem query_ordering (s : Store) (hw : WF s) (t i : Nat)
    (ht : t < 2 ^ 64) (hi : i < 2 ^ 64) :
    (∃ l : List Nat, Store.get_tag_item_ids s t = l.map Except.ok ∧
      l.Pairwise (· < ·)) ∧
    (∃ l : List Nat, Store.get_item_tag_ids s i = l.map Except.ok ∧
      l.Pairwise (· < ·)) := by
  constructor
  · rw [Store.get_tag_item_ids]
    exact scan_decode_ascending hw.sorted_ti hw.keys_ti t
  · rw [Store.get_item_tag_ids]
    exact scan_decode_ascending hw.sorted_it hw.keys_it i

theorem query_ordering_witness :
    (∃ l : List Nat,
      Store.get_tag_item_ids (Store.tag (Store.tag emptyStore 1 5) 3 5) 5 =
        l.map Except.ok ∧ l.Pairwise (· < ·)) ∧
    (∃ l : List Nat,
      Store.get_item_tag_ids (Store.tag (Store.tag emptyStore 1 5) 3 5) 1 =
        l.map Except.ok ∧ l.Pairwise (· < ·)) :=
  query_ordering (Store.tag (Store.tag emptyStore 1 5) 3 5)
    (wf_tag (wf_tag wf_empty (by decide) (by decide)) (by decide) (by decide))
    5 1 (by decide) (by decide)

/-- C6: `get_item_tags` resolves each tag id yielded by `get_item_tag_ids`
through the id→name catalog: a tag id with no catalog entry yields an
`InternalError` element at that position rather than being skipped, and a
cataloged tag id yields the `Tag` with that id and name. -/
theorem resolved_tags_error (s : Store) (i idx t : Nat)
    (h : (Store.get_item_tag_ids s i)[idx]? = some (.ok t)) :
    (sledGet s.tag_id_names (toBytes t) = none →
      (Store.get_item_tags s i)[idx]? = some (.error .InternalError)) ∧
    (∀ name, sledGet s.tag_id_names (toBytes t) = some name →
      (Store.get_item_tags s i)[idx]? = some (.ok ⟨t, name⟩)) := by
  constructor
  · intro hnone
    rw [Store.get_item_tags, List.getElem?_map, h]
    simp [hnone]
  · intro name hsome
    rw [Store.get_item_tags, List.getElem?_map, h]
    simp [hsome]

theorem resolved_tags_error_witness :
    (sledGet (Store.tag emptyStore 1 2).tag_id_names (toBytes 2) = none →
      (Store.get_item_tags (Store.tag emptyStore 1 2) 1)[0]? =
        some (.error .InternalError)) ∧
    (∀ name, sledGet (Store.tag emptyStore 1 2).tag_id_names (toBytes 2) = some name →
      (Store.get_item_tags (Store.tag emptyStore 1 2) 1)[0]? = some (.ok ⟨2, name⟩)) :=
  resolved_tags_error (Store.tag emptyStore 1 2) 1 0 2 rfl

/-- C7: `remove_tag i` fails with `NotFound` exactly when `i` has no entry in
the id→name tree; when `i` is cataloged under a name it succeeds, deleting
both the id→name entry and the corresponding name→id entry while leaving the
index trees and the allocator untouched. -/
theorem remove_tag_spec (s : Store) (hw : WF s) (i : Nat) :
    ((Store.remove_tag s i).1 = .error (.NotFound i) ↔
      sledGet s.tag_id_names (toBytes i) = none) ∧
    (∀ name, sledGet s.tag_id_names (toBytes i) = some name →
      (Store.remove_tag s i).1 = .ok () ∧
      sledGet (Store.remove_tag s i).2.tag_id_names (toBytes i) = none ∧
      sledGet (Store.remove_tag s i).2.tag_name_ids name = none ∧
      (Store.remove_tag s i).2.tag_items = s.tag_items ∧
      (Store.remove_tag s i).2.item_tags = s.item_tags ∧
      (Store.remove_tag s i).2.next_id = s.next_id) := by
  cases hg : sledGet s.tag_id_names (toBytes i) with
  | none =>
    rw [remove_tag_absent hg]
    refine ⟨by simp, ?_⟩
    intro name hname
    exact Option.noConfusion hname
  | some old_name =>
    rw [remove_tag_found hg]
    constructor
    · simp
    · intro name hname
      have hname' : old_name = name := Option.some.inj hname
      subst hname'
      refine ⟨rfl, ?_, ?_, rfl, rfl, rfl⟩
      · exact sledGet_remove_self hw.sorted_idn _
      · exact sledGet_remove_self hw.sorted_nid _

theorem remove_tag_spec_witness :
    ((Store.remove_tag demoStore 1).1 = .error (.NotFound 1) ↔
      sledGet demoStore.tag_id_names (toBytes 1) = none) ∧
    (∀ name, sledGet demoStore.tag_id_names (toBytes 1) = some name →
      (Store.remove_tag demoStore 1).1 = .ok () ∧
      sledGet (Store.remove_tag demoStore 1).2.tag_id_names (toBytes 1) = none ∧
      sledGet (Store.remove_tag demoStore 1).2.tag_name_ids name = none ∧
      (Store.remove_tag demoStore 1).2.tag_items = demoStore.tag_items ∧
      (Store.remove_tag demoStore 1).2.item_tags = demoStore.item_tags ∧
      (Store.remove_tag demoStore 1).2.next_id = demoStore.next_id) :=
  remove_tag_spec demoStore
    (wf_tag (wf_update_fresh wf_empty (by decide) rfl) (by decide) (by decide)) 1

/-- C8: `remove_tag` never modifies the two index trees: for every store
state and identifier, the forward `tag_items` and reverse `item_tags` trees
after the call are the trees before the call, so index entries referencing
the removed id remain as orphans. -/
theorem remove_tag_preserves_index (s : Store) (i : Nat) :
    (Store.remove_tag s i).2.tag_items = s.tag_items ∧
    (Store.remove_tag s i).2.item_tags = s.item_tags :=
  index_unchanged_remove_tag s i

/-- C9: Scenario A: on a fresh store the first allocated identifier is 1;
tagging that item with the unseen name "Jazz" creates tag id 2, after which
`get_tag_id "Jazz"` returns 2 and `get_tag_item_ids 2` yields exactly
`[1]`. -/
theorem scenario_a :
    (Store.id emptyStore).1 = 1 ∧
    ∃ s₁, Store.tag_string (Store.id emptyStore).2 1 jazzName = .ok s₁ ∧
      Store.get_tag_id s₁ jazzName = .ok (some 2) ∧
      Store.get_tag_item_ids s₁ 2 = [.ok 1] := by
  refine ⟨rfl, _, tag_string_fresh_eq 1 rfl, ?_, ?_⟩ <;> rfl

/-- C10: `remove_tag` is atomic on error: whenever the call returns an error,
the store state after the call is exactly the state before it. -/
theorem remove_tag_error_frame (s : Store) (i : Nat) (e : Error)
    (h : (Store.remove_tag s i).1 = .error e) : (Store.remove_tag s i).2 = s := by
  cases hg : sledGet s.tag_id_names (toBytes i) with
  | none =>
    rw [remove_tag_absent hg]
    show { s with tag_id_names := sledRemove s.tag_id_names (toBytes i) } = s
    rw [sledRemove_absent hg]
  | some old_name =>
    rw [remove_tag_found hg] at h
    exact absurd h (by simp)

theorem remove_tag_error_frame_witness :
    (Store.remove_tag emptyStore 999).1 = .error (.NotFound 999) ∧
    (Store.remove_tag emptyStore 999).2 = emptyStore :=
  ⟨rfl, remove_tag_error_frame emptyStore 999 (.NotFound 999) rfl⟩

end Tagmu
